import Mathlib

/-!
Shallow embedding of `src/batched-iteration-mt-leaves/src/lib.rs`.

The crate groups an input stream of 32-byte leaves, each assigned to a
32-byte Merkle-tree key, into a `BTreeMap` (`build_merkle_tree_map`) and
then drains that map, in ascending key order, into batches of changelog
events (`append_leaves`).

Modelling choices:
* a `[u8; 32]` value is a `List Nat` (`Bytes32`); Rust's derived `Ord`
  on equal-length byte arrays is the lexicographic order `compareBytes`;
* the `BTreeMap<[u8; 32], Vec<[u8; 32]>>` is a key-sorted association
  list; `entry(k).or_insert_with(Vec::new).push(v)` is `mapPush`;
* `num_integer::div_ceil` panics on a zero divisor in Rust; the panic is
  made explicit by `div_ceil` returning `Option` and by the `RunResult`
  outcome type of `append_leaves`;
* the `while let` loop of `append_leaves` is `appendLoopF`, structurally
  recursive on a fuel argument; `append_leaves` supplies fuel
  `leaves.length + map.length + 1`, which exceeds the loop's iteration
  count (each iteration consumes at least one leaf or drops one tree).
-/

/-- A `[u8; 32]` value: a list of bytes (byte values are irrelevant to the
algorithm, which only compares them). -/
abbrev Bytes32 := List Nat

/-- Lexicographic comparison, as Rust's derived `Ord` on `[u8; 32]`. -/
def compareBytes : List Nat → List Nat → Ordering
  | [], [] => Ordering.eq
  | [], _ :: _ => Ordering.lt
  | _ :: _, [] => Ordering.gt
  | a :: ta, b :: tb =>
    if a < b then Ordering.lt
    else if b < a then Ordering.gt
    else compareBytes ta tb

/-- Strict key order used by the `BTreeMap` model. -/
def bytesLt (a b : Bytes32) : Prop := compareBytes a b = Ordering.lt

instance (a b : Bytes32) : Decidable (bytesLt a b) := by
  unfold bytesLt; infer_instance

/-- The crate's error enum `MyError`; its only variant carries the two
input lengths. -/
inductive MyError where
  | LeavesTreesNotEqual : Nat → Nat → MyError
  deriving DecidableEq, Repr

/-- `ChangelogEvent`: one contiguous run of leaves appended to one tree. -/
structure ChangelogEvent where
  merkle_tree_pubkey : Bytes32
  leaves : List Bytes32
  deriving DecidableEq, Repr

/-- `Changelogs`: one batch, an ordered list of changelog events. -/
structure Changelogs where
  changelogs : List ChangelogEvent
  deriving DecidableEq, Repr

/-- Outcome of a Rust call that can succeed, return `Err`, or panic
(the panic arm models the divide-by-zero in `div_ceil`). -/
inductive RunResult (α : Type) where
  | ok : α → RunResult α
  | err : MyError → RunResult α
  | panicked : RunResult α
  deriving DecidableEq, Repr

/-- `merkle_tree_map.entry(k).or_insert_with(Vec::new).push(v)` on the
key-sorted association-list model of `BTreeMap`. -/
def mapPush (k v : Bytes32) : List (Bytes32 × List Bytes32) → List (Bytes32 × List Bytes32)
  | [] => [(k, [v])]
  | (k₁, vs) :: rest =>
    match compareBytes k k₁ with
    | Ordering.lt => (k, [v]) :: (k₁, vs) :: rest
    | Ordering.eq => (k₁, vs ++ [v]) :: rest
    | Ordering.gt => (k₁, vs) :: mapPush k v rest

/-- The `for (i, merkle_tree) in merkle_trees.iter().enumerate()` loop of
`build_merkle_tree_map`, folding `mapPush` over the (tree, leaf) pairs. -/
def buildLoop : List (Bytes32 × Bytes32) → List (Bytes32 × List Bytes32) → List (Bytes32 × List Bytes32)
  | [], m => m
  | (tree, leaf) :: rest, m => buildLoop rest (mapPush tree leaf m)

/-- `build_merkle_tree_map`: checks the two lengths, then groups
`leaves[i]` under key `merkle_trees[i]`. -/
def build_merkle_tree_map (leaves merkle_trees : List Bytes32) :
    Except MyError (List (Bytes32 × List Bytes32)) :=
  if leaves.length ≠ merkle_trees.length then
    Except.error (MyError.LeavesTreesNotEqual leaves.length merkle_trees.length)
  else
    Except.ok (buildLoop (merkle_trees.zip leaves) [])

/-- `num_integer::div_ceil` on `usize`; Rust panics on a zero divisor,
modelled as `none`. -/
def div_ceil (a b : Nat) : Option Nat :=
  if b = 0 then none else some (a / b + if a % b = 0 then 0 else 1)

/-- The `while let Some((merkle_tree_pubkey, leaves)) = merkle_tree_map_pair`
loop of `append_leaves`.  State: the not-yet-exhausted part of the map
iterator (`trees`), `leaves_start`, `leaves_in_batch`, the batch under
construction, and the completed batches.  The source's two sequential `if`s
(advance the iterator when the tree's group is exhausted; seal the batch
when it is full) are written as four explicit branches.  When the loop
exits (iterator exhausted) the batch under construction is NOT appended:
the source returns only `batches_of_changelogs`. -/
def appendLoopF : Nat → Nat → List (Bytes32 × List Bytes32) → Nat → Nat →
    List ChangelogEvent → List Changelogs → List Changelogs
  | 0, _, _, _, _, _, out => out
  | _ + 1, _, [], _, _, _, out => out
  | fuel + 1, batch_size, (merkle_tree_pubkey, lvs) :: rest,
      leaves_start, leaves_in_batch, batch, out =>
    let leaves_to_process := min (lvs.length - leaves_start) (batch_size - leaves_in_batch)
    let leaves_end := leaves_start + leaves_to_process
    let changelog_event : ChangelogEvent :=
      ⟨merkle_tree_pubkey, (lvs.take leaves_end).drop leaves_start⟩
    let batch₁ := batch ++ [changelog_event]
    let leaves_in_batch₁ := leaves_in_batch + leaves_to_process
    let leaves_start₁ := leaves_start + leaves_to_process
    if leaves_start₁ = lvs.length then
      if leaves_in_batch₁ = batch_size then
        appendLoopF fuel batch_size rest 0 0 [] (out ++ [⟨batch₁⟩])
      else
        appendLoopF fuel batch_size rest 0 leaves_in_batch₁ batch₁ out
    else
      if leaves_in_batch₁ = batch_size then
        appendLoopF fuel batch_size ((merkle_tree_pubkey, lvs) :: rest) leaves_start₁ 0 []
          (out ++ [⟨batch₁⟩])
      else
        appendLoopF fuel batch_size ((merkle_tree_pubkey, lvs) :: rest) leaves_start₁
          leaves_in_batch₁ batch₁ out

/-- `append_leaves`: build the map, compute `num_batches = div_ceil(len, batch_size)`
(whose only effect is the divide-by-zero panic when `batch_size == 0`),
then run the batching loop starting from the empty state. -/
def append_leaves (leaves merkle_trees : List Bytes32) (batch_size : Nat) :
    RunResult (List Changelogs) :=
  match build_merkle_tree_map leaves merkle_trees with
  | Except.error e => RunResult.err e
  | Except.ok merkle_tree_map =>
    match div_ceil leaves.length batch_size with
    | none => RunResult.panicked
    | some _ =>
      RunResult.ok (appendLoopF (leaves.length + merkle_tree_map.length + 1)
        batch_size merkle_tree_map 0 0 [] [])

/-- First-match association-list lookup (observation of the map model). -/
def mapGet (m : List (Bytes32 × List Bytes32)) (k : Bytes32) : Option (List Bytes32) :=
  match m with
  | [] => none
  | (k₁, vs) :: rest => if k = k₁ then some vs else mapGet rest k

/-- The leaves paired with tree id `t`, in input order: the intended
content of `t`'s group. -/
def groupOf (zs : List (Bytes32 × Bytes32)) (t : Bytes32) : List Bytes32 :=
  (zs.filter (fun p => decide (p.1 = t))).map (fun p => p.2)

/-- Total number of leaves in one batch, summed over its events. -/
def batchSum (b : Changelogs) : Nat :=
  (b.changelogs.map (fun e => e.leaves.length)).sum

/-- Total number of leaves stored in the grouped map. -/
def groupsLeafCount (m : List (Bytes32 × List Bytes32)) : Nat :=
  (m.map (fun p => p.2.length)).sum

/-- The `[x_u8; 32]` literal of the crate's test. -/
def rep (x : Nat) : Bytes32 := List.replicate 32 x

/-- The 25 leaves of the reference scenario: leaf `i` has byte value `i`. -/
def scenarioLeaves : List Bytes32 := (List.range 25).map rep

/-- The tree assignment of the reference scenario: indices 0–11 to tree
`rep 0`, 12–14 to `rep 1`, 15–18 to `rep 2`, 19–24 to `rep 3`. -/
def scenarioTrees : List Bytes32 :=
  List.replicate 12 (rep 0) ++ List.replicate 3 (rep 1) ++
    List.replicate 4 (rep 2) ++ List.replicate 6 (rep 3)

/-- The first batch the code produces on the scenario: tree `rep 0`,
leaves 0–9. -/
def scenarioBatch1 : Changelogs :=
  ⟨[⟨rep 0, (List.range 10).map rep⟩]⟩

/-- The second batch the code produces on the scenario: the remainder of
tree `rep 0`, all of `rep 1` and `rep 2`, and one leaf of `rep 3`. -/
def scenarioBatch2 : Changelogs :=
  ⟨[⟨rep 0, [rep 10, rep 11]⟩, ⟨rep 1, [rep 12, rep 13, rep 14]⟩,
    ⟨rep 2, [rep 15, rep 16, rep 17, rep 18]⟩, ⟨rep 3, [rep 19]⟩]⟩

/-! ### Basic facts about the lexicographic byte order -/

theorem compareBytes_eq_iff : ∀ a b : List Nat, compareBytes a b = Ordering.eq ↔ a = b := by
  intro a
  induction a with
  | nil => intro b; cases b <;> simp [compareBytes]
  | cons x ta ih =>
    intro b
    cases b with
    | nil => simp [compareBytes]
    | cons y tb =>
      simp only [compareBytes]
      by_cases h1 : x < y
      · simp only [if_pos h1]
        constructor
        · intro h; cases h
        · rintro h
          injection h with hx _
          omega
      · by_cases h2 : y < x
        · simp only [if_neg h1, if_pos h2]
          constructor
          · intro h; cases h
          · rintro h
            injection h with hx _
            omega
        · have hxy : x = y := by omega
          subst hxy
          simp [ih]

theorem compareBytes_refl (a : Bytes32) : compareBytes a a = Ordering.eq :=
  (compareBytes_eq_iff a a).mpr rfl

theorem compareBytes_gt_iff : ∀ a b : List Nat, compareBytes a b = Ordering.gt ↔ compareBytes b a = Ordering.lt := by
  intro a
  induction a with
  | nil => intro b; cases b <;> simp [compareBytes]
  | cons x ta ih =>
    intro b
    cases b with
    | nil => simp [compareBytes]
    | cons y tb =>
      simp only [compareBytes]
      by_cases h1 : x < y
      · have h2 : ¬ y < x := by omega
        simp [h1, h2]
      · by_cases h2 : y < x
        · simp [h1, h2]
        · have hxy : x = y := by omega
          subst hxy
          simp [ih]

theorem bytesLt_trans : ∀ a b c : Bytes32, bytesLt a b → bytesLt b c → bytesLt a c := by
  intro a
  induction a with
  | nil =>
    intro b c hab hbc
    cases b with
    | nil => exact hbc
    | cons y tb =>
      cases c with
      | nil => simp [bytesLt, compareBytes] at hbc
      | cons z tc => simp [bytesLt, compareBytes]
  | cons x ta ih =>
    intro b c hab hbc
    cases b with
    | nil => simp [bytesLt, compareBytes] at hab
    | cons y tb =>
      cases c with
      | nil => simp [bytesLt, compareBytes] at hbc
      | cons z tc =>
        simp only [bytesLt, compareBytes] at hab hbc ⊢
        by_cases h1 : x < y
        · by_cases h2 : y < z
          · simp [show x < z by omega]
          · by_cases h3 : z < y
            · simp [h2, h3] at hbc
            · have hyz : y = z := by omega
              subst hyz
              simp [h1]
        · by_cases h1' : y < x
          · simp [h1, h1'] at hab
          · have hxy : x = y := by omega
            subst hxy
            simp only [if_neg h1, if_neg h1'] at hab
            by_cases h2 : x < z
            · simp [h2]
            · by_cases h3 : z < x
              · simp [h2, h3] at hbc
              · have hxz : x = z := by omega
                subst hxz
                simp only [if_neg h2, if_neg h3] at hbc ⊢
                exact ih tb tc hab hbc

theorem bytesLt_ne {a b : Bytes32} (h : bytesLt a b) : a ≠ b := by
  intro heq
  subst heq
  rw [bytesLt, compareBytes_refl a] at h
  cases h


/-! ### Concrete evaluations exposing the dropped trailing batch and the
`batch_size == 0` panic -/

/-- C1: the completeness claim fails on the code.  With one leaf, one tree
and `batch_size = 2` the loop consumes the leaf into the batch under
construction, but the loop exit never appends that batch, so
`append_leaves` returns zero batches and the input leaf appears in no
output event: it is dropped, contradicting the claim (and the crate's own
test, which expects the trailing partial batch). -/
theorem append_leaves_drops_leaf :
    append_leaves [rep 1] [rep 0] 2 = RunResult.ok [] := by decide

/-- C2: the final-partial-batch claim fails on the code.  Three leaves on
one tree with `batch_size = 2` (total not a multiple of the batch size):
after the trees are exhausted the batch under construction holds the third
leaf and is non-empty, yet the code returns only the one sealed full
batch — the trailing batch is never appended. -/
theorem append_leaves_no_trailing_batch :
    append_leaves [rep 5, rep 6, rep 7] [rep 0, rep 0, rep 0] 2 =
      RunResult.ok [⟨[⟨rep 0, [rep 5, rep 6]⟩]⟩] := by decide

/-- C3 counterexample: with `batch_size = 0` the code does not return a
typed error value — `div_ceil(leaves.len(), 0)` divides by zero and the
call panics (and `MyError` has no `InvalidBatchSize` variant at all). -/
theorem append_leaves_zero_batch_size_panics :
    append_leaves [] [] 0 = RunResult.panicked := by decide

/-- C4: the reference scenario fails on the code.  On the 25-leaf,
4-tree input with `batch_size = 10` the code returns exactly the first
TWO batches of the expected answer; the third batch (tree `rep 3`,
leaves 20–24) is the batch still under construction when the loop exits
and is dropped, so the crate's own `test_append_leaves` (which expects
3 batches) fails. -/
theorem append_leaves_scenario_two_batches :
    append_leaves scenarioLeaves scenarioTrees 10 =
      RunResult.ok [scenarioBatch1, scenarioBatch2] := by decide

/-- C5: the small-input boundary claim fails on the code.  Two leaves on
two distinct trees with `batch_size = 5` (total leaf count below the
batch size): the claim requires one batch with one event per tree, but
the only batch ever built is the trailing under-construction batch,
which the code drops, returning zero batches. -/
theorem append_leaves_small_input_empty :
    append_leaves [rep 1, rep 2] [rep 3, rep 4] 5 = RunResult.ok [] := by decide

/-- C3 (amended): for every equal-length input, `append_leaves` with
`batch_size = 0` passes the length check and then panics on the division
by zero inside `div_ceil`; no error value is returned. -/
theorem append_leaves_zero_batch_size (leaves merkle_trees : List Bytes32)
    (h : leaves.length = merkle_trees.length) :
    append_leaves leaves merkle_trees 0 = RunResult.panicked := by
  unfold append_leaves build_merkle_tree_map
  rw [if_neg (by omega)]
  simp [div_ceil]

/-- Witness for `append_leaves_zero_batch_size` at a concrete equal-length
input. -/
theorem append_leaves_zero_batch_size_witness :
    append_leaves [rep 1] [rep 2] 0 = RunResult.panicked :=
  append_leaves_zero_batch_size [rep 1] [rep 2] (by decide)

/-! ### C6: mismatched input lengths -/

/-- C6: whenever the two input sequences differ in length, both
`build_merkle_tree_map` and `append_leaves` return
`LeavesTreesNotEqual (leaves.len(), trees.len())` — in that argument
order — and nothing else; `append_leaves` propagates the error before the
batch-count computation or any batching, for every `batch_size`. -/
theorem length_mismatch_errors (leaves merkle_trees : List Bytes32)
    (h : leaves.length ≠ merkle_trees.length) :
    build_merkle_tree_map leaves merkle_trees =
      Except.error (MyError.LeavesTreesNotEqual leaves.length merkle_trees.length) ∧
    ∀ batch_size, append_leaves leaves merkle_trees batch_size =
      RunResult.err (MyError.LeavesTreesNotEqual leaves.length merkle_trees.length) := by
  have hb : build_merkle_tree_map leaves merkle_trees =
      Except.error (MyError.LeavesTreesNotEqual leaves.length merkle_trees.length) := by
    unfold build_merkle_tree_map
    rw [if_pos h]
  refine ⟨hb, fun batch_size => ?_⟩
  unfold append_leaves
  rw [hb]

/-- Witness for `length_mismatch_errors` at a one-leaf, zero-tree input. -/
theorem length_mismatch_errors_witness :
    build_merkle_tree_map [rep 0] [] =
      Except.error (MyError.LeavesTreesNotEqual 1 0) ∧
    append_leaves [rep 0] [] 3 = RunResult.err (MyError.LeavesTreesNotEqual 1 0) :=
  ⟨(length_mismatch_errors [rep 0] [] (by decide)).1,
    (length_mismatch_errors [rep 0] [] (by decide)).2 3⟩

/-! ### The grouped map: key order, group contents, totals -/

theorem mapPush_key_mem {k v : Bytes32} :
    ∀ m : List (Bytes32 × List Bytes32), ∀ q ∈ mapPush k v m,
      q.1 = k ∨ q.1 ∈ m.map Prod.fst := by
  intro m
  induction m with
  | nil => simp [mapPush]
  | cons p rest ih =>
    obtain ⟨k₁, vs⟩ := p
    intro q hq
    cases hc : compareBytes k k₁ <;> simp only [mapPush, hc] at hq
    · rcases List.mem_cons.mp hq with h | hq'
      · exact Or.inl (by rw [h])
      · rcases List.mem_cons.mp hq' with h | h
        · refine Or.inr ?_; rw [h]; simp
        · refine Or.inr ?_
          simp only [List.map_cons, List.mem_cons]
          exact Or.inr (List.mem_map_of_mem Prod.fst h)
    · rcases List.mem_cons.mp hq with h | h
      · refine Or.inr ?_; rw [h]; simp
      · refine Or.inr ?_
        simp only [List.map_cons, List.mem_cons]
        exact Or.inr (List.mem_map_of_mem Prod.fst h)
    · rcases List.mem_cons.mp hq with h | h
      · refine Or.inr ?_; rw [h]; simp
      · rcases ih q h with h' | h'
        · exact Or.inl h'
        · refine Or.inr ?_
          simp only [List.map_cons, List.mem_cons]
          exact Or.inr h'

theorem mapPush_sorted {k v : Bytes32} :
    ∀ m : List (Bytes32 × List Bytes32),
      List.Pairwise (fun p q => bytesLt p.1 q.1) m →
      List.Pairwise (fun p q => bytesLt p.1 q.1) (mapPush k v m) := by
  intro m
  induction m with
  | nil => intro _; simp [mapPush]
  | cons p rest ih =>
    obtain ⟨k₁, vs⟩ := p
    intro hs
    rcases hs with _ | ⟨h1, h2⟩
    cases hc : compareBytes k k₁ <;> simp only [mapPush, hc]
    · refine List.Pairwise.cons ?_ (List.Pairwise.cons h1 h2)
      intro q hq
      rcases List.mem_cons.mp hq with h | h
      · rw [h]; exact hc
      · exact bytesLt_trans _ _ _ hc (h1 q h)
    · exact List.Pairwise.cons h1 h2
    · refine List.Pairwise.cons ?_ (ih h2)
      intro q hq
      rcases mapPush_key_mem rest q hq with h | h
      · show bytesLt k₁ q.1
        rw [h]
        exact (compareBytes_gt_iff k k₁).mp hc
      · rcases List.mem_map.mp h with ⟨p', hp', hp1⟩
        show bytesLt k₁ q.1
        rw [← hp1]
        exact h1 p' hp'

theorem mapPush_groups_ne {k v : Bytes32} :
    ∀ m : List (Bytes32 × List Bytes32), (∀ p ∈ m, p.2 ≠ []) →
      ∀ p ∈ mapPush k v m, p.2 ≠ [] := by
  intro m
  induction m with
  | nil => simp [mapPush]
  | cons q rest ih =>
    obtain ⟨k₁, vs⟩ := q
    intro hm p hp
    cases hc : compareBytes k k₁ <;> simp only [mapPush, hc] at hp
    · rcases List.mem_cons.mp hp with h | h
      · rw [h]; simp
      · rcases List.mem_cons.mp h with h' | h'
        · rw [h']; exact hm _ (List.mem_cons_self _ _)
        · exact hm p (List.mem_cons_of_mem _ h')
    · rcases List.mem_cons.mp hp with h | h
      · rw [h]; simp
      · exact hm p (List.mem_cons_of_mem _ h)
    · rcases List.mem_cons.mp hp with h | h
      · rw [h]; exact hm _ (List.mem_cons_self _ _)
      · exact ih (fun p' hp' => hm p' (List.mem_cons_of_mem _ hp')) p h

theorem mapPush_count {k v : Bytes32} :
    ∀ m : List (Bytes32 × List Bytes32),
      groupsLeafCount (mapPush k v m) = groupsLeafCount m + 1 := by
  intro m
  induction m with
  | nil => simp [mapPush, groupsLeafCount]
  | cons q rest ih =>
    obtain ⟨k₁, vs⟩ := q
    cases hc : compareBytes k k₁ <;> simp only [mapPush, hc]
    · simp [groupsLeafCount]; omega
    · simp [groupsLeafCount]; omega
    · simp only [groupsLeafCount, List.map_cons, List.sum_cons] at ih ⊢
      omega

theorem mapGet_eq_none_of_forall_lt {k : Bytes32} :
    ∀ m : List (Bytes32 × List Bytes32), (∀ p ∈ m, bytesLt k p.1) →
      mapGet m k = none := by
  intro m
  induction m with
  | nil => simp [mapGet]
  | cons q rest ih =>
    obtain ⟨k₁, vs⟩ := q
    intro hm
    have hk : k ≠ k₁ := bytesLt_ne (hm (k₁, vs) (List.mem_cons_self _ _))
    simp only [mapGet, if_neg hk]
    exact ih fun p hp => hm p (List.mem_cons_of_mem _ hp)

theorem mapGet_mapPush {k v t : Bytes32} :
    ∀ m : List (Bytes32 × List Bytes32),
      List.Pairwise (fun p q => bytesLt p.1 q.1) m →
      mapGet (mapPush k v m) t =
        if t = k then some (((mapGet m k).getD []) ++ [v]) else mapGet m t := by
  intro m
  induction m with
  | nil =>
    intro _
    by_cases h : t = k <;> simp [mapPush, mapGet, h]
  | cons q rest ih =>
    obtain ⟨k₁, vs⟩ := q
    intro hs
    rcases hs with _ | ⟨h1, h2⟩
    cases hc : compareBytes k k₁ <;> simp only [mapPush, hc]
    · have hnone : mapGet ((k₁, vs) :: rest) k = none := by
        refine mapGet_eq_none_of_forall_lt _ ?_
        intro p hp
        rcases List.mem_cons.mp hp with h | h
        · rw [h]; exact hc
        · exact bytesLt_trans _ _ _ hc (h1 p h)
      by_cases ht : t = k
      · rw [if_pos ht, hnone]
        simp [mapGet, ht]
      · rw [if_neg ht]
        simp [mapGet, ht]
    · have hk : k = k₁ := (compareBytes_eq_iff k k₁).mp hc
      subst hk
      by_cases ht : t = k
      · rw [if_pos ht]
        simp [mapGet, ht]
      · rw [if_neg ht]
        simp [mapGet, ht]
    · have hk : k ≠ k₁ := fun h => (bytesLt_ne ((compareBytes_gt_iff k k₁).mp hc)) h.symm
      by_cases ht : t = k₁
      · have htk : t ≠ k := by rw [ht]; exact fun hh => hk hh.symm
        rw [if_neg htk]
        simp [mapGet, ht]
      · simp only [mapGet, if_neg ht, if_neg hk]
        rw [ih h2]

theorem buildLoop_sorted :
    ∀ zs : List (Bytes32 × Bytes32), ∀ m : List (Bytes32 × List Bytes32),
      List.Pairwise (fun p q => bytesLt p.1 q.1) m →
      List.Pairwise (fun p q => bytesLt p.1 q.1) (buildLoop zs m) := by
  intro zs
  induction zs with
  | nil => intro m hm; exact hm
  | cons z rest ih =>
    obtain ⟨tree, leaf⟩ := z
    intro m hm
    exact ih _ (mapPush_sorted m hm)

theorem buildLoop_groups_ne :
    ∀ zs : List (Bytes32 × Bytes32), ∀ m : List (Bytes32 × List Bytes32),
      (∀ p ∈ m, p.2 ≠ []) → ∀ p ∈ buildLoop zs m, p.2 ≠ [] := by
  intro zs
  induction zs with
  | nil => intro m hm; exact hm
  | cons z rest ih =>
    obtain ⟨tree, leaf⟩ := z
    intro m hm
    exact ih _ (mapPush_groups_ne m hm)

theorem buildLoop_count :
    ∀ zs : List (Bytes32 × Bytes32), ∀ m : List (Bytes32 × List Bytes32),
      groupsLeafCount (buildLoop zs m) = groupsLeafCount m + zs.length := by
  intro zs
  induction zs with
  | nil => intro m; simp [buildLoop]
  | cons z rest ih =>
    obtain ⟨tree, leaf⟩ := z
    intro m
    simp only [buildLoop, List.length_cons]
    rw [ih, mapPush_count]
    omega

theorem groupOf_cons {k v t : Bytes32} {zs : List (Bytes32 × Bytes32)} :
    groupOf ((k, v) :: zs) t = if k = t then v :: groupOf zs t else groupOf zs t := by
  by_cases h : k = t <;> simp [groupOf, List.filter, h]

theorem buildLoop_get :
    ∀ zs : List (Bytes32 × Bytes32), ∀ m : List (Bytes32 × List Bytes32),
      List.Pairwise (fun p q => bytesLt p.1 q.1) m → ∀ t,
      mapGet (buildLoop zs m) t =
        match mapGet m t with
        | some vs => some (vs ++ groupOf zs t)
        | none => if groupOf zs t = [] then none else some (groupOf zs t) := by
  intro zs
  induction zs with
  | nil =>
    intro m hm t
    simp only [buildLoop, groupOf, List.filter_nil, List.map_nil]
    cases mapGet m t <;> simp
  | cons z rest ih =>
    obtain ⟨k, v⟩ := z
    intro m hm t
    simp only [buildLoop]
    rw [ih _ (mapPush_sorted m hm), mapGet_mapPush m hm, groupOf_cons]
    by_cases ht : t = k
    · subst ht
      cases hg : mapGet m t <;> simp [hg]
    · rw [if_neg ht]
      simp only [if_neg (show ¬ k = t from fun h => ht h.symm)]

theorem build_merkle_tree_map_eq (leaves merkle_trees : List Bytes32)
    (h : leaves.length = merkle_trees.length) :
    build_merkle_tree_map leaves merkle_trees =
      Except.ok (buildLoop (merkle_trees.zip leaves) []) := by
  unfold build_merkle_tree_map
  rw [if_neg (by omega)]

/-- C8: with equal-length inputs, `build_merkle_tree_map` succeeds; its
keys are strictly ascending in the byte order (so iteration visits tree
ids in ascending order), and the group of every tree id `t` is exactly
the leaves paired with `t`, in their original input order. -/
theorem build_merkle_tree_map_spec (leaves merkle_trees : List Bytes32)
    (h : leaves.length = merkle_trees.length) :
    ∃ m, build_merkle_tree_map leaves merkle_trees = Except.ok m ∧
      List.Pairwise bytesLt (m.map Prod.fst) ∧
      ∀ t, mapGet m t =
        if groupOf (merkle_trees.zip leaves) t = [] then none
        else some (groupOf (merkle_trees.zip leaves) t) := by
  refine ⟨_, build_merkle_tree_map_eq _ _ h, ?_, ?_⟩
  · rw [List.pairwise_map]
    exact buildLoop_sorted _ [] List.Pairwise.nil
  · intro t
    have hg := buildLoop_get (merkle_trees.zip leaves) [] List.Pairwise.nil t
    simpa [mapGet] using hg

/-- Witness for `build_merkle_tree_map_spec`: two leaves on one repeated
tree id plus one other tree. -/
theorem build_merkle_tree_map_spec_witness :
    ∃ m, build_merkle_tree_map [rep 1, rep 2, rep 3] [rep 9, rep 4, rep 9] = Except.ok m ∧
      List.Pairwise bytesLt (m.map Prod.fst) ∧
      ∀ t, mapGet m t =
        if groupOf ([rep 9, rep 4, rep 9].zip [rep 1, rep 2, rep 3]) t = [] then none
        else some (groupOf ([rep 9, rep 4, rep 9].zip [rep 1, rep 2, rep 3]) t) :=
  build_merkle_tree_map_spec [rep 1, rep 2, rep 3] [rep 9, rep 4, rep 9] (by decide)

/-! ### Invariants of the batching loop -/

theorem pairwise_snoc {α : Type} {R : α → α → Prop} {l : List α} {x : α}
    (hl : List.Pairwise R l) (hx : ∀ y ∈ l, R y x) : List.Pairwise R (l ++ [x]) := by
  rw [List.pairwise_append]
  refine ⟨hl, List.pairwise_singleton _ _, ?_⟩
  intro a ha b hb
  rw [List.mem_singleton.mp hb]
  exact hx a ha

theorem slice_length {α : Type} (l : List α) (s n : Nat) (h : s + n ≤ l.length) :
    ((l.take (s + n)).drop s).length = n := by
  simp only [List.length_drop, List.length_take]
  omega

theorem groupsLeafCount_cons (p : Bytes32 × List Bytes32) (m : List (Bytes32 × List Bytes32)) :
    groupsLeafCount (p :: m) = p.2.length + groupsLeafCount m := by
  simp [groupsLeafCount]

/-- Master invariant of `appendLoopF`.  Starting from a loop state whose
batch under construction holds `leaves_in_batch` leaves with strictly
ascending keys all below every remaining tree key, whose remaining groups
are non-empty with strictly ascending keys, and with enough fuel, the loop
returns `out` extended by exactly
`(leaves_in_batch + remaining leaves) / batch_size` sealed batches, and
every returned batch holds exactly `batch_size` leaves, is non-empty, has
no empty event, and lists its events in strictly ascending key order. -/
theorem appendLoopF_invariant (batch_size : Nat) (hbs : 0 < batch_size) :
    ∀ fuel trees leaves_start leaves_in_batch batch out,
      leaves_in_batch < batch_size →
      (∀ pk lvs rest, trees = (pk, lvs) :: rest → leaves_start < lvs.length) →
      (∀ p ∈ trees, p.2 ≠ []) →
      List.Pairwise (fun p q => bytesLt p.1 q.1) trees →
      leaves_in_batch = (batch.map (fun e => e.leaves.length)).sum →
      (∀ e ∈ batch, e.leaves ≠ []) →
      (∀ e ∈ batch, ∀ p ∈ trees, bytesLt e.merkle_tree_pubkey p.1) →
      List.Pairwise bytesLt (batch.map (fun e => e.merkle_tree_pubkey)) →
      (∀ b ∈ out, batchSum b = batch_size ∧ b.changelogs ≠ [] ∧
        (∀ e ∈ b.changelogs, e.leaves ≠ []) ∧
        List.Pairwise bytesLt (b.changelogs.map (fun e => e.merkle_tree_pubkey))) →
      groupsLeafCount trees - leaves_start + 1 ≤ fuel →
      (appendLoopF fuel batch_size trees leaves_start leaves_in_batch batch out).length
          = out.length +
            (leaves_in_batch + (groupsLeafCount trees - leaves_start)) / batch_size ∧
      ∀ b ∈ appendLoopF fuel batch_size trees leaves_start leaves_in_batch batch out,
        batchSum b = batch_size ∧ b.changelogs ≠ [] ∧
        (∀ e ∈ b.changelogs, e.leaves ≠ []) ∧
        List.Pairwise bytesLt (b.changelogs.map (fun e => e.merkle_tree_pubkey)) := by
  intro fuel
  induction fuel with
  | zero =>
    intro trees leaves_start leaves_in_batch batch out _ _ _ _ _ _ _ _ _ hfuel
    omega
  | succ fuel IH =>
    intro trees leaves_start leaves_in_batch batch out hlib hls hne hsort hsum hbne hbt
      hbp hout hfuel
    cases trees with
    | nil =>
      simp only [appendLoopF]
      constructor
      · have h0 : leaves_in_batch + (groupsLeafCount [] - leaves_start) = leaves_in_batch := by
          simp [groupsLeafCount]
        rw [h0, Nat.div_eq_of_lt hlib]
        omega
      · exact hout
    | cons hd rest =>
      obtain ⟨pk, lvs⟩ := hd
      have hlen : leaves_start < lvs.length := hls pk lvs rest rfl
      rcases hsort with _ | ⟨hsort1, hsort2⟩
      simp only [appendLoopF]
      set leaves_to_process := min (lvs.length - leaves_start) (batch_size - leaves_in_batch)
        with hltp
      have hltp1 : 1 ≤ leaves_to_process := by omega
      have hltp_le : leaves_to_process ≤ lvs.length - leaves_start := by omega
      have hlib_le : leaves_in_batch + leaves_to_process ≤ batch_size := by omega
      have hevlen : ((lvs.take (leaves_start + leaves_to_process)).drop leaves_start).length
          = leaves_to_process := slice_length lvs _ _ (by omega)
      have hevne : (lvs.take (leaves_start + leaves_to_process)).drop leaves_start ≠ [] :=
        List.length_pos.mp (by omega)
      have hgc : groupsLeafCount ((pk, lvs) :: rest) = lvs.length + groupsLeafCount rest :=
        groupsLeafCount_cons _ _
      have hls_rest : ∀ pk1 lvs1 rest1, rest = (pk1, lvs1) :: rest1 → 0 < lvs1.length := by
        intro pk1 lvs1 rest1 hr
        have : (pk1, lvs1) ∈ rest := by rw [hr]; exact List.mem_cons_self _ _
        have := hne _ (List.mem_cons_of_mem _ this)
        exact List.length_pos.mpr this
      have hne_rest : ∀ p ∈ rest, p.2 ≠ [] := fun p hp => hne p (List.mem_cons_of_mem _ hp)
      have hbatch_snoc_sum :
          batchSum ⟨batch ++ [⟨pk, (lvs.take (leaves_start + leaves_to_process)).drop
            leaves_start⟩]⟩ = leaves_in_batch + leaves_to_process := by
        simp [batchSum, hevlen, ← hsum]
      have hbatch_snoc_ne :
          (batch ++ [(⟨pk, (lvs.take (leaves_start + leaves_to_process)).drop
            leaves_start⟩ : ChangelogEvent)]) ≠ [] := by simp
      have hbatch_snoc_evne :
          ∀ e ∈ batch ++ [(⟨pk, (lvs.take (leaves_start + leaves_to_process)).drop
            leaves_start⟩ : ChangelogEvent)], e.leaves ≠ [] := by
        intro e he
        rcases List.mem_append.mp he with h | h
        · exact hbne e h
        · rw [List.mem_singleton.mp h]
          exact hevne
      have hbatch_snoc_sorted :
          List.Pairwise bytesLt
            ((batch ++ [(⟨pk, (lvs.take (leaves_start + leaves_to_process)).drop
              leaves_start⟩ : ChangelogEvent)]).map (fun e => e.merkle_tree_pubkey)) := by
        rw [List.map_append]
        refine pairwise_snoc hbp ?_
        intro y hy
        rcases List.mem_map.mp hy with ⟨e, he, hey⟩
        rw [← hey]
        exact hbt e he (pk, lvs) (List.mem_cons_self _ _)
      by_cases hA : leaves_start + leaves_to_process = lvs.length
      · rw [if_pos hA]
        by_cases hS : leaves_in_batch + leaves_to_process = batch_size
        · rw [if_pos hS]
          have hout1 : ∀ b ∈ out ++ [(⟨batch ++ [⟨pk, (lvs.take (leaves_start +
              leaves_to_process)).drop leaves_start⟩]⟩ : Changelogs)],
              batchSum b = batch_size ∧ b.changelogs ≠ [] ∧
              (∀ e ∈ b.changelogs, e.leaves ≠ []) ∧
              List.Pairwise bytesLt (b.changelogs.map (fun e => e.merkle_tree_pubkey)) := by
            intro b hb
            rcases List.mem_append.mp hb with h | h
            · exact hout b h
            · rw [List.mem_singleton.mp h]
              exact ⟨by rw [hbatch_snoc_sum, hS], hbatch_snoc_ne, hbatch_snoc_evne,
                hbatch_snoc_sorted⟩
          obtain ⟨ihlen, ihmem⟩ := IH rest 0 0 [] _ hbs
            (fun pk1 lvs1 rest1 hr => hls_rest pk1 lvs1 rest1 hr) hne_rest hsort2
            (by simp) (by simp) (by simp) (by simp) hout1 (by omega)
          refine ⟨?_, ihmem⟩
          rw [ihlen]
          have e1 : leaves_in_batch + (groupsLeafCount ((pk, lvs) :: rest) - leaves_start)
              = groupsLeafCount rest + batch_size := by omega
          have e2 : 0 + (groupsLeafCount rest - 0) = groupsLeafCount rest := by omega
          rw [e1, e2, Nat.add_div_right _ hbs]
          simp only [List.length_append, List.length_cons, List.length_nil]
          ring
        · rw [if_neg hS]
          obtain ⟨ihlen, ihmem⟩ := IH rest 0 (leaves_in_batch + leaves_to_process) (batch ++
              [⟨pk, (lvs.take (leaves_start + leaves_to_process)).drop leaves_start⟩]) out
            (by omega)
            (fun pk1 lvs1 rest1 hr => hls_rest pk1 lvs1 rest1 hr) hne_rest hsort2
            (by simpa [batchSum] using hbatch_snoc_sum.symm)
            hbatch_snoc_evne
            (by
              intro e he p hp
              rcases List.mem_append.mp he with h | h
              · exact hbt e h p (List.mem_cons_of_mem _ hp)
              · rw [List.mem_singleton.mp h]
                exact hsort1 p hp)
            hbatch_snoc_sorted hout (by omega)
          refine ⟨?_, ihmem⟩
          rw [ihlen]
          have e1 : leaves_in_batch + leaves_to_process + (groupsLeafCount rest - 0)
              = leaves_in_batch + (groupsLeafCount ((pk, lvs) :: rest) - leaves_start) := by
            omega
          rw [e1]
      · rw [if_neg hA]
        by_cases hS : leaves_in_batch + leaves_to_process = batch_size
        · rw [if_pos hS]
          have hout1 : ∀ b ∈ out ++ [(⟨batch ++ [⟨pk, (lvs.take (leaves_start +
              leaves_to_process)).drop leaves_start⟩]⟩ : Changelogs)],
              batchSum b = batch_size ∧ b.changelogs ≠ [] ∧
              (∀ e ∈ b.changelogs, e.leaves ≠ []) ∧
              List.Pairwise bytesLt (b.changelogs.map (fun e => e.merkle_tree_pubkey)) := by
            intro b hb
            rcases List.mem_append.mp hb with h | h
            · exact hout b h
            · rw [List.mem_singleton.mp h]
              exact ⟨by rw [hbatch_snoc_sum, hS], hbatch_snoc_ne, hbatch_snoc_evne,
                hbatch_snoc_sorted⟩
          obtain ⟨ihlen, ihmem⟩ := IH ((pk, lvs) :: rest) (leaves_start + leaves_to_process)
            0 [] _ hbs
            (by
              intro pk1 lvs1 rest1 hr
              injection hr with hr1 hr2
              injection hr1 with hrpk hrlvs
              subst hrlvs
              omega)
            hne (List.Pairwise.cons hsort1 hsort2)
            (by simp) (by simp) (by simp) (by simp) hout1
            (by rw [hgc] at hfuel ⊢; omega)
          refine ⟨?_, ihmem⟩
          rw [ihlen]
          have e1 : leaves_in_batch + (groupsLeafCount ((pk, lvs) :: rest) - leaves_start)
              = (groupsLeafCount ((pk, lvs) :: rest) - (leaves_start + leaves_to_process))
                + batch_size := by
            rw [hgc] at *
            omega
          have e2 : 0 + (groupsLeafCount ((pk, lvs) :: rest) -
              (leaves_start + leaves_to_process))
              = groupsLeafCount ((pk, lvs) :: rest) - (leaves_start + leaves_to_process) := by
            omega
          rw [e1, e2, Nat.add_div_right _ hbs]
          simp only [List.length_append, List.length_cons, List.length_nil]
          ring
        · exfalso
          omega

/-- Spec of a successful `append_leaves` run: with equal-length inputs and
a positive batch size it returns `Ok`, the number of returned batches is
`⌊total / batch_size⌋` (every returned batch being exactly full — the
trailing partial batch is discarded by the loop exit), and each batch is
non-empty, has no empty event, and lists events in ascending key order. -/
theorem append_leaves_spec (leaves merkle_trees : List Bytes32) (batch_size : Nat)
    (hlen : leaves.length = merkle_trees.length) (hbs : 0 < batch_size) :
    ∃ l, append_leaves leaves merkle_trees batch_size = RunResult.ok l ∧
      l.length = leaves.length / batch_size ∧
      ∀ b ∈ l, batchSum b = batch_size ∧ b.changelogs ≠ [] ∧
        (∀ e ∈ b.changelogs, e.leaves ≠ []) ∧
        List.Pairwise bytesLt (b.changelogs.map (fun e => e.merkle_tree_pubkey)) := by
  have hmap := build_merkle_tree_map_eq leaves merkle_trees hlen
  set M := buildLoop (merkle_trees.zip leaves) [] with hM
  have hgcM : groupsLeafCount M = leaves.length := by
    rw [hM, buildLoop_count]
    simp [groupsLeafCount, List.length_zip]
    omega
  have hne : ∀ p ∈ M, p.2 ≠ [] := buildLoop_groups_ne _ [] (by simp)
  have hsorted : List.Pairwise (fun p q => bytesLt p.1 q.1) M :=
    buildLoop_sorted _ [] List.Pairwise.nil
  obtain ⟨ihlen, ihmem⟩ := appendLoopF_invariant batch_size hbs
    (leaves.length + M.length + 1) M 0 0 [] [] hbs
    (fun pk lvs rest hr => by
      have hmem : (pk, lvs) ∈ M := by rw [hr]; exact List.mem_cons_self _ _
      exact List.length_pos.mpr (hne _ hmem))
    hne hsorted (by simp) (by simp) (by simp) (by simp) (by simp) (by omega)
  refine ⟨appendLoopF (leaves.length + M.length + 1) batch_size M 0 0 [] [],
    ?_, ?_, ihmem⟩
  · unfold append_leaves
    rw [hmap]
    simp only [div_ceil, if_neg (show ¬ batch_size = 0 by omega)]
  · rw [ihlen]
    simp [hgcM]

/-- C7: for every equal-length input and `batch_size ≥ 1`, `append_leaves`
returns `Ok`, every returned batch contains at least one changelog event,
and every event in every returned batch contains at least one leaf. -/
theorem append_leaves_no_empty_containers (leaves merkle_trees : List Bytes32)
    (batch_size : Nat) (hlen : leaves.length = merkle_trees.length)
    (hbs : 1 ≤ batch_size) :
    ∃ l, append_leaves leaves merkle_trees batch_size = RunResult.ok l ∧
      ∀ b ∈ l, b.changelogs ≠ [] ∧ ∀ e ∈ b.changelogs, e.leaves ≠ [] := by
  obtain ⟨l, hok, _, hmem⟩ := append_leaves_spec leaves merkle_trees batch_size hlen hbs
  exact ⟨l, hok, fun b hb => ⟨(hmem b hb).2.1, (hmem b hb).2.2.1⟩⟩

/-- Witness for `append_leaves_no_empty_containers`: two leaves on one
tree, batch size one. -/
theorem append_leaves_no_empty_containers_witness :
    ∃ l, append_leaves [rep 4, rep 5] [rep 1, rep 1] 1 = RunResult.ok l ∧
      ∀ b ∈ l, b.changelogs ≠ [] ∧ ∀ e ∈ b.changelogs, e.leaves ≠ [] :=
  append_leaves_no_empty_containers [rep 4, rep 5] [rep 1, rep 1] 1 (by decide) (by decide)

/-- C9: for every equal-length input and `batch_size ≥ 1`, every batch
returned by `append_leaves` — the last included — carries exactly
`batch_size` leaves across its events, and the number of returned batches
is `⌊leaves.length / batch_size⌋`. -/
theorem append_leaves_batches_exactly_full (leaves merkle_trees : List Bytes32)
    (batch_size : Nat) (hlen : leaves.length = merkle_trees.length)
    (hbs : 1 ≤ batch_size) :
    ∃ l, append_leaves leaves merkle_trees batch_size = RunResult.ok l ∧
      (∀ b ∈ l, batchSum b = batch_size) ∧
      l.length = leaves.length / batch_size := by
  obtain ⟨l, hok, hcount, hmem⟩ := append_leaves_spec leaves merkle_trees batch_size hlen hbs
  exact ⟨l, hok, fun b hb => (hmem b hb).1, hcount⟩

/-- Witness for `append_leaves_batches_exactly_full`: three leaves, batch
size two — one full batch, the third leaf discarded with the trailing
batch. -/
theorem append_leaves_batches_exactly_full_witness :
    ∃ l, append_leaves [rep 1, rep 2, rep 3] [rep 0, rep 0, rep 6] 2 = RunResult.ok l ∧
      (∀ b ∈ l, batchSum b = 2) ∧ l.length = 3 / 2 :=
  append_leaves_batches_exactly_full [rep 1, rep 2, rep 3] [rep 0, rep 0, rep 6] 2
    (by decide) (by decide)

/-- C10: for every equal-length input and `batch_size ≥ 1`, within each
returned batch the events have strictly ascending `merkle_tree_pubkey`
(hence each tree id occurs in at most one event per batch). -/
theorem append_leaves_events_strictly_ascending (leaves merkle_trees : List Bytes32)
    (batch_size : Nat) (hlen : leaves.length = merkle_trees.length)
    (hbs : 1 ≤ batch_size) :
    ∃ l, append_leaves leaves merkle_trees batch_size = RunResult.ok l ∧
      ∀ b ∈ l, List.Pairwise bytesLt (b.changelogs.map (fun e => e.merkle_tree_pubkey)) ∧
        (b.changelogs.map (fun e => e.merkle_tree_pubkey)).Nodup := by
  obtain ⟨l, hok, _, hmem⟩ := append_leaves_spec leaves merkle_trees batch_size hlen hbs
  refine ⟨l, hok, fun b hb => ⟨(hmem b hb).2.2.2, ?_⟩⟩
  exact List.Pairwise.imp (fun h => bytesLt_ne h) (hmem b hb).2.2.2

/-- Witness for `append_leaves_events_strictly_ascending`: two trees given
in descending input order, batch size two. -/
theorem append_leaves_events_strictly_ascending_witness :
    ∃ l, append_leaves [rep 1, rep 2] [rep 7, rep 3] 2 = RunResult.ok l ∧
      ∀ b ∈ l, List.Pairwise bytesLt (b.changelogs.map (fun e => e.merkle_tree_pubkey)) ∧
        (b.changelogs.map (fun e => e.merkle_tree_pubkey)).Nodup :=
  append_leaves_events_strictly_ascending [rep 1, rep 2] [rep 7, rep 3] 2
    (by decide) (by decide)
